import Mathlib

/-!
Verification of the day-plan scheduler of the AssignmentTracker repository
(src/src/components/PlansView.tsx).

Modelling conventions (a shallow embedding of the TypeScript source):

* Instants are integers: minutes on a zone-local (America/Toronto) timeline in which
  every civil day has exactly 1440 minutes.  A calendar day is its integer day index,
  so luxon's startOf("day") is flooring division by 1440 and plus({days: d}) adds d.
* An ISO `YYYY-MM-DD` date string compares lexicographically exactly as its day index
  compares numerically, so day strings are represented by their day index.
* A due-date string that does not parse (luxon invalid DateTime, JS NaN date) is
  `none`.  NaN comparisons in the source evaluate to false and are modelled
  accordingly at each use site; in particular luxon's DateTime.min is
  bestBy(xs, valueOf, Math.min), whose NaN === NaN accumulator test fails, so
  DateTime.min(invalidDueDay, viewEnd) returns the valid viewEnd and an
  unparseable due date gets the full 7-day window.  A chunk's day is Option Int
  because JS array indexing can return undefined; with the min semantics above the
  produced day is in fact always defined.
* JS numbers in the day-index computation are modelled by exact rationals, with
  Math.round as round-half-up (floor of x + 1/2).
* The override object is modelled as an association list with first-match lookup;
  the JS spread update corresponds to consing a new binding in front.
* Array.prototype.sort with a numeric comparator is modelled as a stable insertion
  sort on the predicate cmp x y ≤ 0; the ES SortCompare clause mapping a NaN
  comparator result to +0 is built into the comparators.
-/

namespace PlansView

def minutesPerDay : Int := 1440

/-- CHUNK_MINUTES = 30 in the source. -/
def CHUNK_MINUTES : Int := 30

/-- MIN_LAST_CHUNK = 10 in the source. -/
def MIN_LAST_CHUNK : Int := 10

/-- Assignment record (src/src/types.ts).  dueISO is the parsed due instant in
minutes; `none` models an unparseable due-date string. -/
structure Assignment where
  id : String
  course : Option String := none
  title : String := ""
  dueISO : Option Int := none
  estimateMinutes : Option Int := none
deriving Repr, DecidableEq

/-- ChunkOverride record: optional done flag and optional day override (day index). -/
structure ChunkOverride where
  done : Option Bool := none
  dayISO : Option Int := none
deriving Repr, DecidableEq

/-- The persisted override map, an association list keyed by chunk key. -/
def OverridesByChunkKey : Type := List (String × ChunkOverride)

/-- Property lookup on the override object: first binding wins. -/
def lookupOv (ov : OverridesByChunkKey) (k : String) : Option ChunkOverride :=
  match ov with
  | [] => none
  | (k2, v) :: rest => if k2 = k then some v else lookupOv rest k

/-- chunkKey from the source: assignmentId and chunk index joined by a bar. -/
def chunkKey (assignmentId : String) (index : Nat) : String :=
  assignmentId ++ "|" ++ toString index

/-- PlanChunk record of the source.  dayISO is `none` exactly when the JS value is
undefined (unparseable due date and no day override). -/
structure PlanChunk where
  key : String
  assignmentId : String
  course : Option String
  title : String
  dueISO : Option Int
  dayISO : Option Int
  minutes : Int
  done : Bool
deriving Repr, DecidableEq

/-- clampToView from the source, on day indices. -/
def clampToView (dayISO viewStartISO viewEndISO : Int) : Int :=
  if dayISO < viewStartISO then viewStartISO
  else if dayISO > viewEndISO then viewEndISO
  else dayISO

/-- Math.round: round half toward positive infinity. -/
def jsRound (x : ℚ) : Int := ⌊x + 1/2⌋

/-- Math.round(a / b) for b > 0, computed exactly in integer arithmetic:
floor(a/b + 1/2) = floor((2a + b) / (2b)). -/
def roundDiv (a b : Int) : Int := (2 * a + b).fdiv (2 * b)

/-- Math.ceil(a / b) for b > 0, computed exactly in integer arithmetic. -/
def ceilDiv (a b : Int) : Int := -((-a).fdiv b)

/-- JS array indexing days[i] for a possibly out-of-range or non-natural index:
out of range gives undefined. -/
def listGet (l : List Int) (idx : Int) : Option Int :=
  if idx < 0 then none else l[idx.toNat]?

/-- chunkCount = Math.max(1, Math.ceil(totalMinutes / CHUNK_MINUTES)). -/
def chunkCount (totalMinutes : Int) : Int :=
  max 1 (ceilDiv totalMinutes CHUNK_MINUTES)

/-- The chunk-splitting loop of buildDayPlan (source lines 129-140), with the
accumulator kept in reverse.  i is the loop index, fuel the remaining iterations
(initially chunkCount).  Merging the tiny tail into the previous chunk exits the
loop, as the break does in the source. -/
def chunkLoop (totalMinutes : Int) : Nat → List Int → Nat → List Int
  | _, accRev, 0 => accRev.reverse
  | i, accRev, fuel + 1 =>
    let remaining := totalMinutes - (i : Int) * CHUNK_MINUTES
    let mins := min CHUNK_MINUTES remaining
    match accRev with
    | [] => chunkLoop totalMinutes (i + 1) [mins] fuel
    | prev :: rest =>
      if mins < MIN_LAST_CHUNK then ((prev + mins) :: rest).reverse
      else chunkLoop totalMinutes (i + 1) (mins :: prev :: rest) fuel

/-- The chunkMinutes array computed for a given clamped total. -/
def chunkSizes (totalMinutes : Int) : List Int :=
  chunkLoop totalMinutes 0 [] (chunkCount totalMinutes).toNat

/-- The stale-item filter (source line 123): due < viewStart.minus({days: 30}).
An invalid due date makes the comparison false (NaN), so the item is kept. -/
def isStale (now : Int) (a : Assignment) : Bool :=
  match a.dueISO with
  | some t => decide (t < minutesPerDay * (now.fdiv minutesPerDay) - 30 * minutesPerDay)
  | none => false

/-- The body of one iteration of the chunk-placement loop of buildDayPlan (source
lines 154-179): build the chunk for index/minutes pair p of assignment a.  The
per-assignment quantities (sizes, window, day list) are recomputed from a and
viewStartDay, exactly as they are in scope in the source loop. -/
def chunkOf (viewStartDay : Int) (overrides : OverridesByChunkKey) (a : Assignment)
    (p : Nat × Int) : PlanChunk :=
  let viewEndDay := viewStartDay + 6
  let totalMinutes := max 30 (a.estimateMinutes.getD 60)
  let sizes := chunkSizes totalMinutes
  let dueDay : Option Int := a.dueISO.map (fun t => t.fdiv minutesPerDay)
  -- DateTime.min(dueDay, viewEnd): when dueDay is invalid its valueOf is NaN and
  -- luxon's bestBy comparison NaN === NaN fails, so the valid viewEnd is returned
  let lastDay : Int :=
    match dueDay with
    | some dd => min dd viewEndDay
    | none => viewEndDay
  let windowDays : Int := max 0 (lastDay - viewStartDay)
  let windowLen : Int := windowDays + 1
  let days : List Int :=
    (List.range windowLen.toNat).map (fun d : Nat => viewStartDay + (d : Int))
  let i := p.1
  let mins := p.2
  let key := chunkKey a.id i
  let ov := (lookupOv overrides key).getD {}
  -- ratio = i / (sizes.length - 1) kept as an exact numerator/denominator pair,
  -- so Math.round(ratio * (L - 1)) is roundDiv (ratioNum * (L - 1)) ratioDen
  let ratioNum : Int := if sizes.length = 1 then 0 else (i : Int)
  let ratioDen : Int := if sizes.length = 1 then 1 else ((sizes.length - 1 : ℕ) : Int)
  let dayIndex : Int :=
    if windowLen = 1 then 0 else roundDiv (ratioNum * (windowLen - 1)) ratioDen
  let defaultDayISO : Option Int := listGet days dayIndex
  let plannedDayISO : Option Int :=
    match ov.dayISO, defaultDayISO with
    | some d, _ => some (clampToView d viewStartDay viewEndDay)
    | none, some d => some (clampToView d viewStartDay viewEndDay)
    | none, none => none
  { key := key
    assignmentId := a.id
    course := a.course
    title := a.title
    dueISO := a.dueISO
    dayISO := plannedDayISO
    minutes := mins
    done := ov.done.getD false }

/-- The body of the per-assignment block of buildDayPlan (source lines 118-180),
producing the chunks of one assignment in index order.  viewStartDay is the day
index of the start of the current day. -/
def planFor (viewStartDay : Int) (overrides : OverridesByChunkKey) (a : Assignment) :
    List PlanChunk :=
  (chunkSizes (max 30 (a.estimateMinutes.getD 60))).enum.map
    (chunkOf viewStartDay overrides a)

/-- The assignment sort comparator (source lines 114-116): difference of due
times; a NaN difference (unparseable date) is treated as +0 by ES SortCompare. -/
def cmpDue (a b : Assignment) : Int :=
  match a.dueISO, b.dueISO with
  | some s, some t => s - t
  | _, _ => 0

/-- JS `<` on two possibly-undefined ISO day strings: any undefined gives false. -/
def jsLtOpt : Option Int → Option Int → Bool
  | some a, some b => decide (a < b)
  | _, _ => false

/-- The final chunk sort comparator (source lines 183-186): day ascending, then
due instant ascending; a NaN difference is treated as +0. -/
def cmpChunk (x y : PlanChunk) : Int :=
  if x.dayISO ≠ y.dayISO then (if jsLtOpt x.dayISO y.dayISO then -1 else 1)
  else
    match x.dueISO, y.dueISO with
    | some s, some t => s - t
    | _, _ => 0

/-- Stable insertion: x is placed before the first y with cmp x y ≤ 0. -/
def insertBy {α : Type} (cmp : α → α → Int) (x : α) : List α → List α
  | [] => [x]
  | y :: ys => if cmp x y ≤ 0 then x :: y :: ys else y :: insertBy cmp x ys

/-- Stable sort by a numeric comparator. -/
def sortBy {α : Type} (cmp : α → α → Int) : List α → List α
  | [] => []
  | x :: xs => insertBy cmp x (sortBy cmp xs)

/-- buildDayPlan (source lines 104-189).  now is the current instant in minutes. -/
def buildDayPlan (now : Int) (items : List Assignment)
    (overrides : OverridesByChunkKey) : List PlanChunk :=
  let viewStartDay := now.fdiv minutesPerDay
  let sorted := sortBy cmpDue items
  let kept := sorted.filter (fun a => !(isStale now a))
  let chunks := kept.flatMap (planFor viewStartDay overrides)
  sortBy cmpChunk chunks

/-- The override update performed by toggling a chunk done (source lines 224-229),
specialised to setting done to true: spread-copy the old entry and set done. -/
def setDone (ov : OverridesByChunkKey) (k : String) : OverridesByChunkKey :=
  (k, { (lookupOv ov k).getD {} with done := some true }) :: ov

/-- Proof-layer function: the effect of a done=true override at key k on a single
already-built chunk. -/
def doneMap (k : String) (c : PlanChunk) : PlanChunk :=
  if c.key = k then { c with done := true } else c

/-- The remainder of the clamped total in the last 30-minute slot. -/
def lastChunkRem (total : Int) : Int :=
  total - CHUNK_MINUTES * (chunkCount total - 1)

/-- Proof-layer abbreviation for the merge step of the chunk loop: add r into the
head of the reversed accumulator and reverse (empty accumulator: a lone chunk). -/
def mergeInto (accRev : List Int) (r : Int) : List Int :=
  match accRev with
  | [] => [r]
  | prev :: rest => ((prev + r) :: rest).reverse

/-- The length of the assignment's local planning window (source lines 143-145),
as a function of the view-start day and the due day: windowDays + 1. -/
def localWindowLen (vs dd : Int) : Int := max 0 (min dd (vs + 6) - vs) + 1

/-- The default (un-overridden) day index of chunk i of n over a local window of
length L (source lines 159-160), in exact integer arithmetic. -/
def defaultDayIndex (n : Nat) (L : Int) (i : Nat) : Int :=
  if L = 1 then 0
  else
    roundDiv ((if n = 1 then 0 else (i : Int)) * (L - 1))
      (if n = 1 then 1 else ((n - 1 : ℕ) : Int))

/-! ### Concrete sample inputs used by witnesses and counterexamples -/

/-- A 70-minute assignment due early on day 2 (instant 3000 = 2 days + 120 min). -/
def hw70 : Assignment :=
  { id := "a", title := "hw", dueISO := some 3000, estimateMinutes := some 70 }

/-- A 65-minute assignment due early on day 2. -/
def hw65 : Assignment :=
  { id := "a", title := "hw", dueISO := some 3000, estimateMinutes := some 65 }

/-- A 60-minute assignment due yesterday (instant -840 lies on day -1). -/
def hwOverdue : Assignment :=
  { id := "a", title := "hw", dueISO := some (-840), estimateMinutes := some 60 }

/-- An assignment whose due-date string does not parse. -/
def hwBadDue : Assignment :=
  { id := "a", title := "hw", dueISO := none, estimateMinutes := some 30 }

/-- An assignment due 30 days and 1 minute before the window start at instant 0. -/
def hwVeryStale : Assignment :=
  { id := "a", title := "hw", dueISO := some (-43201), estimateMinutes := some 60 }

/-- The first chunk that buildDayPlan 0 [hw70] [] produces. -/
def chunk70at0 : PlanChunk :=
  { key := "a|0", assignmentId := "a", course := none, title := "hw",
    dueISO := some 3000, dayISO := some 0, minutes := 30, done := false }

/-- The chunk with key a|1 of hw70 when its day is overridden to 50 (clamped to 6). -/
def chunk70moved : PlanChunk :=
  { key := "a|1", assignmentId := "a", course := none, title := "hw",
    dueISO := some 3000, dayISO := some 6, minutes := 30, done := false }

/-- The merged 35-minute chunk that buildDayPlan 0 [hw65] [] produces. -/
def chunk65merged : PlanChunk :=
  { key := "a|1", assignmentId := "a", course := none, title := "hw",
    dueISO := some 3000, dayISO := some 2, minutes := 35, done := false }

/-- The single chunk that buildDayPlan 0 [hwBadDue] [] produces: the unparseable
due date gets the full 7-day window, and the lone chunk defaults to today. -/
def chunkBadDue : PlanChunk :=
  { key := "a|0", assignmentId := "a", course := none, title := "hw",
    dueISO := none, dayISO := some 0, minutes := 30, done := false }

/-! ### Arithmetic facts about the exact-integer round and ceiling -/

theorem ceilDiv_eq_ceil (a b : Int) (hb : 0 < b) : ceilDiv a b = ⌈(a : ℚ) / (b : ℚ)⌉ := by
  have hb0 : (0 : Int) ≤ b := hb.le
  have hcast : ((b.toNat : ℕ) : ℚ) = (b : ℚ) := by exact_mod_cast Int.toNat_of_nonneg hb0
  have h1 : ⌊((-a : ℤ) : ℚ) / ((b.toNat : ℕ) : ℚ)⌋ = (-a) / (b.toNat : ℤ) :=
    Rat.floor_intCast_div_natCast (-a) b.toNat
  rw [hcast, Int.toNat_of_nonneg hb0] at h1
  have h2 : ((-a : ℤ) : ℚ) = -((a : ℤ) : ℚ) := by push_cast; ring
  rw [h2, neg_div, Int.floor_neg] at h1
  unfold ceilDiv
  rw [Int.fdiv_eq_ediv _ hb0]
  omega

theorem roundDiv_eq_jsRound (a b : Int) (hb : 0 < b) :
    roundDiv a b = jsRound ((a : ℚ) / (b : ℚ)) := by
  have hb0 : (0 : Int) ≤ 2 * b := by omega
  have hbQ : (b : ℚ) ≠ 0 := by exact_mod_cast hb.ne'
  have hcast : (((2 * b).toNat : ℕ) : ℚ) = ((2 * b : ℤ) : ℚ) := by
    exact_mod_cast Int.toNat_of_nonneg hb0
  have h1 : ⌊((2 * a + b : ℤ) : ℚ) / (((2 * b).toNat : ℕ) : ℚ)⌋
      = (2 * a + b) / ((2 * b).toNat : ℤ) :=
    Rat.floor_intCast_div_natCast (2 * a + b) (2 * b).toNat
  rw [hcast, Int.toNat_of_nonneg hb0] at h1
  have h2 : ((2 * a + b : ℤ) : ℚ) / ((2 * b : ℤ) : ℚ) = (a : ℚ) / (b : ℚ) + 1 / 2 := by
    have h2b : ((2 * b : ℤ) : ℚ) ≠ 0 := by
      push_cast
      intro hc
      apply hbQ
      linarith
    field_simp
    ring
  rw [h2] at h1
  unfold roundDiv jsRound
  rw [Int.fdiv_eq_ediv _ hb0]
  omega

theorem jsRound_nonneg {x : ℚ} (hx : 0 ≤ x) : 0 ≤ jsRound x := by
  unfold jsRound
  have : (0 : ℚ) ≤ x + 1 / 2 := by linarith
  exact Int.le_floor.mpr (by exact_mod_cast this)

theorem jsRound_le {x : ℚ} {K : Int} (hK : x ≤ (K : ℚ)) : jsRound x ≤ K := by
  unfold jsRound
  have hlt : x + 1 / 2 < ((K + 1 : ℤ) : ℚ) := by push_cast; linarith
  have := Int.floor_lt.mpr hlt
  omega

theorem jsRound_intCast (K : Int) : jsRound (K : ℚ) = K := by
  unfold jsRound
  have h0 : ⌊(1 : ℚ) / 2⌋ = 0 := by
    have h1 : (0 : ℚ) ≤ 1 / 2 := by norm_num
    have h2 : (1 : ℚ) / 2 < 1 := by norm_num
    have ha : 0 ≤ ⌊(1 : ℚ) / 2⌋ := Int.le_floor.mpr (by exact_mod_cast h1)
    have hb : ⌊(1 : ℚ) / 2⌋ < 1 := Int.floor_lt.mpr (by exact_mod_cast h2)
    omega
  rw [Int.floor_int_add, h0, add_zero]

theorem chunkCount_pos (total : Int) : 1 ≤ chunkCount total := le_max_left 1 _

/-- For a clamped total, the max 1 guard in chunkCount is inactive. -/
theorem chunkCount_eq (total : Int) (h : 30 ≤ total) :
    chunkCount total = ceilDiv total CHUNK_MINUTES := by
  have h30 : (0 : Int) < 30 := by norm_num
  have hceil : ceilDiv total 30 = ⌈(total : ℚ) / (30 : ℚ)⌉ := by
    have := ceilDiv_eq_ceil total 30 h30
    exact_mod_cast this
  have hpos : (0 : ℚ) < (total : ℚ) / 30 := by
    have : (30 : ℚ) ≤ (total : ℚ) := by exact_mod_cast h
    positivity
  have h1 : 1 ≤ ⌈(total : ℚ) / (30 : ℚ)⌉ := by
    have := Int.lt_ceil.mpr (by exact_mod_cast hpos : ((0 : ℤ) : ℚ) < (total : ℚ) / 30)
    omega
  unfold chunkCount
  show max 1 (ceilDiv total 30) = ceilDiv total 30
  rw [hceil]
  exact max_eq_right h1

theorem total_le_chunkCount (total : Int) (h : 30 ≤ total) :
    total ≤ CHUNK_MINUTES * chunkCount total := by
  rw [chunkCount_eq total h]
  have h30 : (0 : Int) < 30 := by norm_num
  have hceil : ceilDiv total 30 = ⌈(total : ℚ) / (30 : ℚ)⌉ := by
    have := ceilDiv_eq_ceil total 30 h30
    exact_mod_cast this
  have hle : (total : ℚ) / 30 ≤ (⌈(total : ℚ) / (30 : ℚ)⌉ : ℚ) := Int.le_ceil _
  have h2 : (total : ℚ) ≤ 30 * (⌈(total : ℚ) / (30 : ℚ)⌉ : ℚ) := by
    rw [div_le_iff₀ (by norm_num : (0:ℚ) < 30)] at hle
    linarith
  show total ≤ 30 * ceilDiv total 30
  rw [hceil]
  exact_mod_cast h2

theorem chunkCount_lt_total (total : Int) (h : 30 ≤ total) :
    CHUNK_MINUTES * (chunkCount total - 1) < total := by
  rw [chunkCount_eq total h]
  have h30 : (0 : Int) < 30 := by norm_num
  have hceil : ceilDiv total 30 = ⌈(total : ℚ) / (30 : ℚ)⌉ := by
    have := ceilDiv_eq_ceil total 30 h30
    exact_mod_cast this
  have hlt : (⌈(total : ℚ) / (30 : ℚ)⌉ : ℚ) < (total : ℚ) / 30 + 1 := Int.ceil_lt_add_one _
  have h2 : 30 * ((⌈(total : ℚ) / (30 : ℚ)⌉ : ℚ) - 1) < (total : ℚ) := by
    have h3 : (total : ℚ) / 30 * 30 = (total : ℚ) := by field_simp
    nlinarith
  show 30 * (ceilDiv total 30 - 1) < total
  rw [hceil]
  exact_mod_cast h2

theorem lastChunkRem_pos (total : Int) (h : 30 ≤ total) : 1 ≤ lastChunkRem total := by
  have := chunkCount_lt_total total h
  unfold lastChunkRem
  omega

theorem lastChunkRem_le (total : Int) (h : 30 ≤ total) : lastChunkRem total ≤ 30 := by
  have := total_le_chunkCount total h
  unfold lastChunkRem CHUNK_MINUTES at *
  omega

/-! ### Closed form of the chunk-splitting loop -/

theorem chunkLoop_spec (total : Int) (h : 30 ≤ total) :
    ∀ (fuel i : Nat) (accRev : List Int),
      i + fuel = (chunkCount total).toNat → 1 ≤ fuel →
      chunkLoop total i accRev fuel =
        if lastChunkRem total < MIN_LAST_CHUNK then
          mergeInto
            (List.replicate ((chunkCount total).toNat - 1 - i) CHUNK_MINUTES ++ accRev)
            (lastChunkRem total)
        else
          (lastChunkRem total ::
            (List.replicate ((chunkCount total).toNat - 1 - i) CHUNK_MINUTES ++ accRev)).reverse := by
  have hC1 : 1 ≤ chunkCount total := chunkCount_pos total
  have hCt : ((chunkCount total).toNat : Int) = chunkCount total := Int.toNat_of_nonneg (by omega)
  have hr1 : 1 ≤ lastChunkRem total := lastChunkRem_pos total h
  have hr30 : lastChunkRem total ≤ 30 := lastChunkRem_le total h
  have hrdef : lastChunkRem total = total - CHUNK_MINUTES * (chunkCount total - 1) := rfl
  intro fuel
  induction fuel with
  | zero => intro i accRev _ h2; omega
  | succ f ih =>
    intro i accRev hif _
    cases f with
    | zero =>
      -- the last iteration: i = chunkCount - 1, remaining = lastChunkRem
      have hi : (i : Int) = chunkCount total - 1 := by omega
      have hrem : total - (i : Int) * CHUNK_MINUTES = lastChunkRem total := by
        rw [hi, hrdef]; ring
      have hmins : min CHUNK_MINUTES (total - (i : Int) * CHUNK_MINUTES) = lastChunkRem total := by
        rw [hrem]
        exact min_eq_right (by unfold CHUNK_MINUTES; omega)
      have hk0 : (chunkCount total).toNat - 1 - i = 0 := by omega
      rw [hk0, List.replicate_zero, List.nil_append]
      cases accRev with
      | nil =>
        simp only [chunkLoop, hmins]
        by_cases hlt : lastChunkRem total < MIN_LAST_CHUNK
        · rw [if_pos hlt]
          simp [mergeInto]
        · rw [if_neg hlt]
      | cons p rest =>
        simp only [chunkLoop, hmins]
        by_cases hlt : lastChunkRem total < MIN_LAST_CHUNK
        · rw [if_pos hlt, if_pos hlt]
          simp [mergeInto]
        · rw [if_neg hlt, if_neg hlt]
    | succ g =>
      -- a full 30-minute iteration: remaining > 30
      have hi : (i : Int) ≤ chunkCount total - 2 := by omega
      have hrem : CHUNK_MINUTES + 1 ≤ total - (i : Int) * CHUNK_MINUTES := by
        have : (i : Int) * CHUNK_MINUTES + CHUNK_MINUTES ≤ CHUNK_MINUTES * (chunkCount total - 1) := by
          unfold CHUNK_MINUTES at *
          nlinarith
        unfold CHUNK_MINUTES at *
        omega
      have hmins : min CHUNK_MINUTES (total - (i : Int) * CHUNK_MINUTES) = CHUNK_MINUTES :=
        min_eq_left (by omega)
      have hnotlt : ¬ (CHUNK_MINUTES < MIN_LAST_CHUNK) := by
        unfold CHUNK_MINUTES MIN_LAST_CHUNK; omega
      have hstep : chunkLoop total i accRev (g + 1 + 1)
          = chunkLoop total (i + 1) (CHUNK_MINUTES :: accRev) (g + 1) := by
        cases accRev with
        | nil =>
          conv_lhs => rw [chunkLoop]
          simp only [hmins]
        | cons p rest =>
          conv_lhs => rw [chunkLoop]
          simp only [hmins, if_neg hnotlt]
      rw [hstep, ih (i + 1) (CHUNK_MINUTES :: accRev) (by omega) (by omega)]
      have hlist : List.replicate ((chunkCount total).toNat - 1 - (i + 1)) CHUNK_MINUTES
            ++ (CHUNK_MINUTES :: accRev)
          = List.replicate ((chunkCount total).toNat - 1 - i) CHUNK_MINUTES ++ accRev := by
        have hk : (chunkCount total).toNat - 1 - i
            = ((chunkCount total).toNat - 1 - (i + 1)) + 1 := by omega
        rw [hk, List.replicate_succ', List.append_assoc, List.singleton_append]
      rw [hlist]

theorem chunkSizes_closed (total : Int) (h : 30 ≤ total) :
    chunkSizes total =
      if lastChunkRem total < MIN_LAST_CHUNK then
        List.replicate ((chunkCount total).toNat - 2) CHUNK_MINUTES
          ++ [CHUNK_MINUTES + lastChunkRem total]
      else
        List.replicate ((chunkCount total).toNat - 1) CHUNK_MINUTES
          ++ [lastChunkRem total] := by
  have hC1 : 1 ≤ chunkCount total := chunkCount_pos total
  have hCt : ((chunkCount total).toNat : Int) = chunkCount total := Int.toNat_of_nonneg (by omega)
  unfold chunkSizes
  rw [chunkLoop_spec total h (chunkCount total).toNat 0 [] (by omega) (by omega)]
  by_cases hlt : lastChunkRem total < MIN_LAST_CHUNK
  · -- the merge fires, so there are at least two slots
    have hC2 : 2 ≤ (chunkCount total).toNat := by
      by_contra hc
      have hc1 : chunkCount total = 1 := by omega
      have hre : lastChunkRem total = total := by
        unfold lastChunkRem
        rw [hc1]
        simp
      unfold MIN_LAST_CHUNK at hlt
      omega
    have hk : (chunkCount total).toNat - 1 - 0 = ((chunkCount total).toNat - 2) + 1 := by omega
    rw [if_pos hlt, if_pos hlt, hk, List.append_nil, List.replicate_succ]
    simp only [mergeInto, List.reverse_cons, List.reverse_replicate]
  · rw [if_neg hlt, if_neg hlt, List.append_nil, Nat.sub_zero]
    simp only [List.reverse_cons, List.reverse_replicate]

theorem chunkSizes_sum (total : Int) (h : 30 ≤ total) : (chunkSizes total).sum = total := by
  have hC1 : 1 ≤ chunkCount total := chunkCount_pos total
  have hCt : ((chunkCount total).toNat : Int) = chunkCount total := Int.toNat_of_nonneg (by omega)
  have hrdef : lastChunkRem total = total - CHUNK_MINUTES * (chunkCount total - 1) := rfl
  rw [chunkSizes_closed total h]
  by_cases hlt : lastChunkRem total < MIN_LAST_CHUNK
  · have hC2 : 2 ≤ (chunkCount total).toNat := by
      by_contra hc
      have hc1 : chunkCount total = 1 := by omega
      have hre : lastChunkRem total = total := by
        unfold lastChunkRem
        rw [hc1]
        simp
      unfold MIN_LAST_CHUNK at hlt
      omega
    rw [if_pos hlt]
    rw [List.sum_append, List.sum_replicate, List.sum_cons, List.sum_nil, nsmul_eq_mul]
    have hcast : (((chunkCount total).toNat - 2 : ℕ) : Int) = chunkCount total - 2 := by omega
    rw [hcast]
    unfold CHUNK_MINUTES at *
    omega
  · rw [if_neg hlt]
    rw [List.sum_append, List.sum_replicate, List.sum_cons, List.sum_nil, nsmul_eq_mul]
    have hcast : (((chunkCount total).toNat - 1 : ℕ) : Int) = chunkCount total - 1 := by omega
    rw [hcast]
    unfold CHUNK_MINUTES at *
    omega

theorem chunkSizes_mem_bounds (total : Int) (h : 30 ≤ total) :
    ∀ x ∈ chunkSizes total, MIN_LAST_CHUNK ≤ x ∧ x ≤ 39 := by
  have hr1 : 1 ≤ lastChunkRem total := lastChunkRem_pos total h
  have hr30 : lastChunkRem total ≤ 30 := lastChunkRem_le total h
  rw [chunkSizes_closed total h]
  intro x hx
  by_cases hlt : lastChunkRem total < MIN_LAST_CHUNK
  · rw [if_pos hlt] at hx
    rcases List.mem_append.mp hx with hx | hx
    · have := List.eq_of_mem_replicate hx
      subst this
      unfold CHUNK_MINUTES MIN_LAST_CHUNK
      omega
    · rcases List.mem_singleton.mp hx with rfl
      unfold CHUNK_MINUTES MIN_LAST_CHUNK at *
      omega
  · rw [if_neg hlt] at hx
    rcases List.mem_append.mp hx with hx | hx
    · have := List.eq_of_mem_replicate hx
      subst this
      unfold CHUNK_MINUTES MIN_LAST_CHUNK
      omega
    · rcases List.mem_singleton.mp hx with rfl
      unfold CHUNK_MINUTES MIN_LAST_CHUNK at *
      omega

theorem chunkSizes_ne_nil (total : Int) (h : 30 ≤ total) : chunkSizes total ≠ [] := by
  rw [chunkSizes_closed total h]
  by_cases hlt : lastChunkRem total < MIN_LAST_CHUNK
  · rw [if_pos hlt]
    simp
  · rw [if_neg hlt]
    simp

/-! ### The stable insertion sort: permutation and congruence facts -/

theorem insertBy_perm {α : Type} (cmp : α → α → Int) (x : α) (l : List α) :
    (insertBy cmp x l).Perm (x :: l) := by
  induction l with
  | nil => exact List.Perm.refl _
  | cons y ys ih =>
    rw [insertBy]
    by_cases h : cmp x y ≤ 0
    · rw [if_pos h]
    · rw [if_neg h]
      exact (ih.cons y).trans (List.Perm.swap x y ys)

theorem sortBy_perm {α : Type} (cmp : α → α → Int) (l : List α) :
    (sortBy cmp l).Perm l := by
  induction l with
  | nil => exact List.Perm.refl _
  | cons x xs ih =>
    rw [sortBy]
    exact (insertBy_perm cmp x (sortBy cmp xs)).trans (ih.cons x)

theorem mem_sortBy {α : Type} {cmp : α → α → Int} {x : α} {l : List α} :
    x ∈ sortBy cmp l ↔ x ∈ l :=
  (sortBy_perm cmp l).mem_iff

theorem insertBy_map {α : Type} (cmp : α → α → Int) (f : α → α)
    (hf : ∀ a b, cmp (f a) (f b) = cmp a b) (x : α) (l : List α) :
    insertBy cmp (f x) (l.map f) = (insertBy cmp x l).map f := by
  induction l with
  | nil => rfl
  | cons y ys ih =>
    by_cases h : cmp x y ≤ 0
    · simp [insertBy, hf, h]
    · simp [insertBy, hf, h, ih]

theorem sortBy_map {α : Type} (cmp : α → α → Int) (f : α → α)
    (hf : ∀ a b, cmp (f a) (f b) = cmp a b) (l : List α) :
    sortBy cmp (l.map f) = (sortBy cmp l).map f := by
  induction l with
  | nil => rfl
  | cons x xs ih =>
    simp only [List.map_cons, sortBy, ih, insertBy_map cmp f hf]

/-! ### Facts about the chunks of a single assignment -/

theorem chunkOf_assignmentId (vs : Int) (ov : OverridesByChunkKey) (a : Assignment)
    (p : Nat × Int) : (chunkOf vs ov a p).assignmentId = a.id := rfl

theorem chunkOf_dueISO (vs : Int) (ov : OverridesByChunkKey) (a : Assignment)
    (p : Nat × Int) : (chunkOf vs ov a p).dueISO = a.dueISO := rfl

theorem chunkOf_minutes (vs : Int) (ov : OverridesByChunkKey) (a : Assignment)
    (p : Nat × Int) : (chunkOf vs ov a p).minutes = p.2 := rfl

theorem chunkOf_key (vs : Int) (ov : OverridesByChunkKey) (a : Assignment)
    (p : Nat × Int) : (chunkOf vs ov a p).key = chunkKey a.id p.1 := rfl

theorem chunkOf_done (vs : Int) (ov : OverridesByChunkKey) (a : Assignment)
    (p : Nat × Int) :
    (chunkOf vs ov a p).done
      = (((lookupOv ov (chunkKey a.id p.1)).getD {}).done.getD false) := rfl

theorem planFor_map_minutes (vs : Int) (ov : OverridesByChunkKey) (a : Assignment) :
    (planFor vs ov a).map (fun c => c.minutes)
      = chunkSizes (max 30 (a.estimateMinutes.getD 60)) := by
  unfold planFor
  rw [List.map_map]
  have : (fun c => PlanChunk.minutes c) ∘ chunkOf vs ov a = Prod.snd := rfl
  rw [this, List.enum_map_snd]

theorem mem_planFor {vs : Int} {ov : OverridesByChunkKey} {a : Assignment}
    {c : PlanChunk} :
    c ∈ planFor vs ov a ↔
      ∃ p : Nat × Int,
        (chunkSizes (max 30 (a.estimateMinutes.getD 60)))[p.1]? = some p.2 ∧
        c = chunkOf vs ov a p := by
  unfold planFor
  rw [List.mem_map]
  constructor
  · rintro ⟨p, hp, rfl⟩
    exact ⟨p, List.mem_enum_iff_getElem?.mp hp, rfl⟩
  · rintro ⟨p, hp, rfl⟩
    exact ⟨p, List.mem_enum_iff_getElem?.mpr hp, rfl⟩

/-! ### Placement of a chunk's day -/

theorem clampToView_mem (d vs ve : Int) (h : vs ≤ ve) :
    vs ≤ clampToView d vs ve ∧ clampToView d vs ve ≤ ve := by
  unfold clampToView
  split_ifs <;> omega

theorem clampToView_eq_self (d vs ve : Int) (h1 : vs ≤ d) (h2 : d ≤ ve) :
    clampToView d vs ve = d := by
  unfold clampToView
  split_ifs <;> omega

theorem listGet_range_map (vs L di : Int) (h0 : 0 ≤ di) (hL : di < L) :
    listGet ((List.range L.toNat).map (fun d : Nat => vs + (d : Int))) di = some (vs + di) := by
  unfold listGet
  rw [if_neg (not_lt.mpr h0)]
  rw [List.getElem?_map, List.getElem?_range (by omega : di.toNat < L.toNat)]
  simp [Int.toNat_of_nonneg h0]

theorem localWindowLen_pos (vs dd : Int) : 1 ≤ localWindowLen vs dd := by
  unfold localWindowLen
  omega

theorem localWindowLen_le (vs dd : Int) : localWindowLen vs dd ≤ 7 := by
  unfold localWindowLen
  omega

theorem defaultDayIndex_bounds (n : Nat) (L : Int) (i : Nat) (hn : i < n) (hL : 1 ≤ L) :
    0 ≤ defaultDayIndex n L i ∧ defaultDayIndex n L i ≤ L - 1 := by
  unfold defaultDayIndex
  by_cases hL1 : L = 1
  · rw [if_pos hL1]
    omega
  · rw [if_neg hL1]
    by_cases hn1 : n = 1
    · rw [if_pos hn1, if_pos hn1, zero_mul]
      have h1 : roundDiv 0 1 = jsRound (((0 : ℤ) : ℚ) / ((1 : ℤ) : ℚ)) :=
        roundDiv_eq_jsRound 0 1 (by norm_num)
      have h2 : (((0 : ℤ) : ℚ) / ((1 : ℤ) : ℚ)) = ((0 : ℤ) : ℚ) := by norm_num
      rw [h1, h2, jsRound_intCast]
      omega
    · rw [if_neg hn1, if_neg hn1]
      obtain ⟨m, rfl⟩ : ∃ m, n = m + 1 := ⟨n - 1, by omega⟩
      simp only [Nat.add_sub_cancel]
      have hm1 : 1 ≤ m := by omega
      have hd : (0 : Int) < ((m : ℕ) : Int) := by exact_mod_cast hm1
      rw [roundDiv_eq_jsRound _ _ hd]
      have hLq : (0 : ℚ) ≤ (L : ℚ) - 1 := by
        have : (1 : ℚ) ≤ (L : ℚ) := by exact_mod_cast hL
        linarith
      have hiq : (i : ℚ) ≤ (m : ℚ) := by exact_mod_cast (by omega : i ≤ m)
      constructor
      · apply jsRound_nonneg
        apply div_nonneg
        · push_cast
          have h0i : (0 : ℚ) ≤ (i : ℚ) := by positivity
          nlinarith
        · push_cast
          positivity
      · apply jsRound_le
        rw [div_le_iff₀ (by exact_mod_cast hd : (0:ℚ) < (((m : ℕ) : ℤ) : ℚ))]
        push_cast
        have key : (0 : ℚ) ≤ ((m : ℚ) - (i : ℚ)) * ((L : ℚ) - 1) :=
          mul_nonneg (by linarith) hLq
        nlinarith

/-- Evaluation of a chunk when the due date parses: the planned day is the
override day if present, else vs + defaultDayIndex, clamped into the view. -/
theorem chunkOf_eval_some (vs : Int) (ov : OverridesByChunkKey) (a : Assignment)
    (p : Nat × Int) (t : Int) (hdue : a.dueISO = some t)
    (hp : p.1 < (chunkSizes (max 30 (a.estimateMinutes.getD 60))).length) :
    (chunkOf vs ov a p).dayISO =
      some (clampToView
        ((((lookupOv ov (chunkKey a.id p.1)).getD {}).dayISO).getD
          (vs + defaultDayIndex (chunkSizes (max 30 (a.estimateMinutes.getD 60))).length
            (localWindowLen vs (t.fdiv minutesPerDay)) p.1))
        vs (vs + 6)) := by
  have hL1 : 1 ≤ localWindowLen vs (t.fdiv minutesPerDay) := localWindowLen_pos _ _
  have hdib := defaultDayIndex_bounds
    (chunkSizes (max 30 (a.estimateMinutes.getD 60))).length
    (localWindowLen vs (t.fdiv minutesPerDay)) p.1 hp hL1
  have hget : listGet
      ((List.range (localWindowLen vs (t.fdiv minutesPerDay)).toNat).map
        (fun d : Nat => vs + (d : Int)))
      (defaultDayIndex (chunkSizes (max 30 (a.estimateMinutes.getD 60))).length
        (localWindowLen vs (t.fdiv minutesPerDay)) p.1)
      = some (vs + defaultDayIndex (chunkSizes (max 30 (a.estimateMinutes.getD 60))).length
          (localWindowLen vs (t.fdiv minutesPerDay)) p.1) :=
    listGet_range_map _ _ _ hdib.1 (by omega)
  unfold chunkOf
  unfold defaultDayIndex localWindowLen at hget ⊢
  rcases hovd : ((lookupOv ov (chunkKey a.id p.1)).getD {}).dayISO with _ | d
  · simp only [hdue, Option.map_some', hovd, hget, Option.getD_none]
  · simp only [hdue, Option.map_some', hovd, hget, Option.getD_some]

/-- Evaluation of a chunk when the due date does not parse: DateTime.min returns
the valid window end, so the chunk is placed over the full 7-day window: the
planned day is the override day if present, else vs + defaultDayIndex over a
window of length 7, clamped into the view. -/
theorem chunkOf_eval_none (vs : Int) (ov : OverridesByChunkKey) (a : Assignment)
    (p : Nat × Int) (hdue : a.dueISO = none)
    (hp : p.1 < (chunkSizes (max 30 (a.estimateMinutes.getD 60))).length) :
    (chunkOf vs ov a p).dayISO =
      some (clampToView
        ((((lookupOv ov (chunkKey a.id p.1)).getD {}).dayISO).getD
          (vs + defaultDayIndex (chunkSizes (max 30 (a.estimateMinutes.getD 60))).length
            7 p.1))
        vs (vs + 6)) := by
  have hdib := defaultDayIndex_bounds
    (chunkSizes (max 30 (a.estimateMinutes.getD 60))).length 7 p.1 hp (by norm_num)
  have hget : listGet
      ((List.range (7 : Int).toNat).map (fun d : Nat => vs + (d : Int)))
      (defaultDayIndex (chunkSizes (max 30 (a.estimateMinutes.getD 60))).length 7 p.1)
      = some (vs + defaultDayIndex
          (chunkSizes (max 30 (a.estimateMinutes.getD 60))).length 7 p.1) :=
    listGet_range_map _ _ _ hdib.1 (by omega)
  have hw : (max 0 (vs + 6 - vs) + 1 : Int) = 7 := by omega
  unfold chunkOf
  unfold defaultDayIndex at hget ⊢
  rcases hovd : ((lookupOv ov (chunkKey a.id p.1)).getD {}).dayISO with _ | d
  · simp only [hdue, Option.map_none', hw, hovd, hget, Option.getD_none]
  · simp only [hdue, Option.map_none', hw, hovd, hget, Option.getD_some]

/-! ### Membership in the full plan -/

theorem planFor_length (vs : Int) (ov : OverridesByChunkKey) (a : Assignment) :
    (planFor vs ov a).length = (chunkSizes (max 30 (a.estimateMinutes.getD 60))).length := by
  unfold planFor
  rw [List.length_map, List.enum_length]

theorem mem_buildDayPlan {now : Int} {items : List Assignment}
    {ov : OverridesByChunkKey} {c : PlanChunk} :
    c ∈ buildDayPlan now items ov ↔
      ∃ a, a ∈ items ∧ isStale now a = false ∧ c ∈ planFor (now.fdiv minutesPerDay) ov a := by
  unfold buildDayPlan
  rw [mem_sortBy, List.mem_flatMap]
  constructor
  · rintro ⟨a, ha, hc⟩
    rw [List.mem_filter] at ha
    obtain ⟨ha1, ha2⟩ := ha
    rw [mem_sortBy] at ha1
    refine ⟨a, ha1, ?_, hc⟩
    simpa using ha2
  · rintro ⟨a, ha, hstale, hc⟩
    refine ⟨a, ?_, hc⟩
    rw [List.mem_filter, mem_sortBy]
    exact ⟨ha, by simp [hstale]⟩

theorem flatMap_length_congr {α β γ : Type} (l : List α) (f : α → List β) (g : α → List γ)
    (h : ∀ a ∈ l, (f a).length = (g a).length) :
    (l.flatMap f).length = (l.flatMap g).length := by
  induction l with
  | nil => rfl
  | cons x xs ih =>
    simp only [List.flatMap_cons, List.length_append]
    rw [h x (by simp), ih (fun a ha => h a (by simp [ha]))]

theorem sum_map_filter_flatMap {α β : Type} (l : List α) (f : α → List β) (p : β → Bool)
    (g : β → Int) :
    (((l.flatMap f).filter p).map g).sum
      = (l.map (fun b => (((f b).filter p).map g).sum)).sum := by
  induction l with
  | nil => rfl
  | cons x xs ih =>
    simp only [List.flatMap_cons, List.filter_append, List.map_append, List.sum_append,
      List.map_cons, List.sum_cons]
    rw [ih]

theorem sum_ite_unique (l : List Assignment) (a : Assignment) (g : Assignment → Int)
    (hmem : a ∈ l) (hids : (l.map (fun b => b.id)).Nodup) :
    (l.map (fun b => if b.id = a.id then g b else 0)).sum = g a := by
  induction l with
  | nil => cases hmem
  | cons x xs ih =>
    rw [List.map_cons, List.nodup_cons] at hids
    rw [List.map_cons, List.sum_cons]
    rcases List.mem_cons.mp hmem with rfl | hmem2
    · rw [if_pos rfl]
      have hzero : (xs.map (fun b => if b.id = a.id then g b else 0)).sum = 0 := by
        apply List.sum_eq_zero
        intro y hy
        rw [List.mem_map] at hy
        obtain ⟨b, hb, rfl⟩ := hy
        rw [if_neg]
        intro hcontra
        exact hids.1 (List.mem_map.mpr ⟨b, hb, hcontra.symm ▸ rfl⟩)
      rw [hzero, add_zero]
    · have hxa : ¬ (x.id = a.id) := by
        intro he
        exact hids.1 (he ▸ List.mem_map.mpr ⟨a, hmem2, rfl⟩)
      rw [if_neg hxa, zero_add]
      exact ih hmem2 hids.2

theorem planFor_filter_id (vs : Int) (ov : OverridesByChunkKey) (b : Assignment)
    (aid : String) :
    (planFor vs ov b).filter (fun c => c.assignmentId == aid)
      = if b.id = aid then planFor vs ov b else [] := by
  have hall : ∀ c ∈ planFor vs ov b, c.assignmentId = b.id := by
    intro c hc
    obtain ⟨p, _, rfl⟩ := mem_planFor.mp hc
    rfl
  by_cases hid : b.id = aid
  · rw [if_pos hid]
    apply List.filter_eq_self.mpr
    intro c hc
    simp [hall c hc, hid]
  · rw [if_neg hid]
    apply List.filter_eq_nil_iff.mpr
    intro c hc
    simp [hall c hc, hid]

/-! ### Claim C1 -/

/-- C1: for every assignment that is not excluded by the stale-item filter and whose
due date parses, the sum of the minutes of all chunks that buildDayPlan produces for
that assignment equals max(30, estimateMinutes or 60 if absent) exactly, for every
override map (assignment ids being unique, as the data model requires). -/
theorem C1_minutes_sum_exact (now : Int) (items : List Assignment)
    (ov : OverridesByChunkKey) (a : Assignment) (t : Int)
    (hmem : a ∈ items) (hdue : a.dueISO = some t) (hstale : isStale now a = false)
    (hids : (items.map (fun b => b.id)).Nodup) :
    (((buildDayPlan now items ov).filter
        (fun c => c.assignmentId == a.id)).map (fun c => c.minutes)).sum
      = max 30 (a.estimateMinutes.getD 60) := by
  unfold buildDayPlan
  have hperm : (sortBy cmpChunk
      (((sortBy cmpDue items).filter (fun b => !(isStale now b))).flatMap
        (planFor (now.fdiv minutesPerDay) ov))).Perm
      (((sortBy cmpDue items).filter (fun b => !(isStale now b))).flatMap
        (planFor (now.fdiv minutesPerDay) ov)) := sortBy_perm _ _
  have hsum := ((hperm.filter (fun c => c.assignmentId == a.id)).map
    (fun c => c.minutes)).sum_eq
  rw [hsum, sum_map_filter_flatMap]
  have hcong : (((sortBy cmpDue items).filter (fun b => !(isStale now b))).map
        (fun b => (((planFor (now.fdiv minutesPerDay) ov b).filter
          (fun c => c.assignmentId == a.id)).map (fun c => c.minutes)).sum))
      = ((sortBy cmpDue items).filter (fun b => !(isStale now b))).map
        (fun b => if b.id = a.id
          then ((planFor (now.fdiv minutesPerDay) ov b).map (fun c => c.minutes)).sum
          else 0) := by
    apply List.map_congr_left
    intro b _
    rw [planFor_filter_id]
    by_cases hid : b.id = a.id
    · rw [if_pos hid, if_pos hid]
    · rw [if_neg hid, if_neg hid]
      rfl
  rw [hcong]
  have hkmem : a ∈ (sortBy cmpDue items).filter (fun b => !(isStale now b)) := by
    rw [List.mem_filter, mem_sortBy]
    exact ⟨hmem, by simp [hstale]⟩
  have hknodup : (((sortBy cmpDue items).filter (fun b => !(isStale now b))).map
      (fun b => b.id)).Nodup := by
    have hsub : List.Sublist
        ((sortBy cmpDue items).filter (fun b => !(isStale now b)))
        (sortBy cmpDue items) := List.filter_sublist _
    have hperm3 : ((sortBy cmpDue items).map (fun b => b.id)).Perm
        (items.map (fun b => b.id)) := (sortBy_perm cmpDue items).map _
    have h1 : ((sortBy cmpDue items).map (fun b => b.id)).Nodup :=
      hperm3.nodup_iff.mpr hids
    exact List.Nodup.sublist (hsub.map _) h1
  rw [sum_ite_unique _ a _ hkmem hknodup, planFor_map_minutes,
    chunkSizes_sum _ (le_max_left _ _)]

/-- Witness for C1 at a concrete input: a 70-minute assignment due on day 2,
viewed from instant 0, with an empty override map. -/
theorem C1_minutes_sum_exact_witness :
    (((buildDayPlan 0 [hw70] []).filter
      (fun c => c.assignmentId == "a")).map (fun c => c.minutes)).sum = 70 := by
  have h := C1_minutes_sum_exact 0 [hw70] [] hw70 3000
    (by simp) rfl (by decide) (by decide)
  simpa [hw70] using h

/-! ### Claim C2 -/

/-- C2: for every assignment list and every override map, every chunk in the
output of buildDayPlan has a defined day lying within the 7-day window
[today, today+6] inclusive.  An unparseable due date is no exception: there
DateTime.min returns the valid window end, so the assignment is spread over the
full window. -/
theorem C2_day_in_window (now : Int) (items : List Assignment) (ov : OverridesByChunkKey)
    (c : PlanChunk) (hc : c ∈ buildDayPlan now items ov) :
    ∃ d, c.dayISO = some d ∧ now.fdiv minutesPerDay ≤ d
      ∧ d ≤ now.fdiv minutesPerDay + 6 := by
  obtain ⟨a, _, _, hcp⟩ := mem_buildDayPlan.mp hc
  obtain ⟨p, hp, rfl⟩ := mem_planFor.mp hcp
  obtain ⟨hplen, _⟩ := List.getElem?_eq_some_iff.mp hp
  rcases hdue : a.dueISO with _ | t
  · rw [chunkOf_eval_none _ _ _ _ hdue hplen]
    refine ⟨_, rfl, ?_, ?_⟩
    · exact (clampToView_mem _ _ _ (by omega)).1
    · exact (clampToView_mem _ _ _ (by omega)).2
  · rw [chunkOf_eval_some _ _ _ _ t hdue hplen]
    refine ⟨_, rfl, ?_, ?_⟩
    · exact (clampToView_mem _ _ _ (by omega)).1
    · exact (clampToView_mem _ _ _ (by omega)).2

/-- Witness for C2 at a concrete input: the chunk of an assignment with an
unparseable due date, seen from instant 0, lands on today. -/
theorem C2_day_in_window_witness :
    ∃ d, chunkBadDue.dayISO = some d
      ∧ (0 : Int).fdiv minutesPerDay ≤ d ∧ d ≤ (0 : Int).fdiv minutesPerDay + 6 :=
  C2_day_in_window 0 [hwBadDue] [] chunkBadDue (by decide)

/-! ### Claim C6 -/

/-- A chunk whose override carries a day always gets that day clamped to the view,
regardless of whether the due date parses. -/
theorem chunkOf_dayISO_override (vs : Int) (ov : OverridesByChunkKey) (a : Assignment)
    (p : Nat × Int) (d : Int)
    (hov : ((lookupOv ov (chunkKey a.id p.1)).getD {}).dayISO = some d) :
    (chunkOf vs ov a p).dayISO = some (clampToView d vs (vs + 6)) := by
  unfold chunkOf
  simp only [hov]

/-- C6: if a chunk of the plan has a day override d, the chunk's day is d clamped
into the window: the window start when d is before it, the window end when d is
after it, never the literal out-of-window value, and no failure occurs. -/
theorem C6_override_clamped (now : Int) (items : List Assignment)
    (ov : OverridesByChunkKey) (c : PlanChunk) (d : Int)
    (hc : c ∈ buildDayPlan now items ov)
    (hov : ((lookupOv ov c.key).getD {}).dayISO = some d) :
    c.dayISO = some (clampToView d (now.fdiv minutesPerDay) (now.fdiv minutesPerDay + 6))
    ∧ (d < now.fdiv minutesPerDay → c.dayISO = some (now.fdiv minutesPerDay))
    ∧ (now.fdiv minutesPerDay + 6 < d → c.dayISO = some (now.fdiv minutesPerDay + 6)) := by
  obtain ⟨a, _, _, hcp⟩ := mem_buildDayPlan.mp hc
  obtain ⟨p, hp, rfl⟩ := mem_planFor.mp hcp
  rw [chunkOf_key] at hov
  have hday := chunkOf_dayISO_override (now.fdiv minutesPerDay) ov a p d hov
  refine ⟨hday, ?_, ?_⟩
  · intro hlt
    rw [hday]
    unfold clampToView
    rw [if_pos hlt]
  · intro hgt
    rw [hday]
    unfold clampToView
    rw [if_neg (by omega), if_pos hgt]

/-- Witness for C6 at a concrete input: override day 50 is far beyond the window
end 6, and the chunk lands on day 6. -/
theorem C6_override_clamped_witness :
    chunk70moved.dayISO
      = some (clampToView 50 ((0 : Int).fdiv minutesPerDay) ((0 : Int).fdiv minutesPerDay + 6))
    ∧ ((50 : Int) < (0 : Int).fdiv minutesPerDay →
        chunk70moved.dayISO = some ((0 : Int).fdiv minutesPerDay))
    ∧ ((0 : Int).fdiv minutesPerDay + 6 < 50 →
        chunk70moved.dayISO = some ((0 : Int).fdiv minutesPerDay + 6)) :=
  C6_override_clamped 0 [hw70] [("a|1", { dayISO := some 50 })] chunk70moved 50
    (by decide) (by decide)

/-! ### Claim C7 -/

/-- C7: an assignment whose due instant is more than 30 days before the window
start contributes zero chunks to the plan, for every override map (no other
assignment sharing its id). -/
theorem C7_stale_excluded (now : Int) (items : List Assignment)
    (ov : OverridesByChunkKey) (a : Assignment) (t : Int) (hdue : a.dueISO = some t)
    (hstale : t < minutesPerDay * (now.fdiv minutesPerDay) - 30 * minutesPerDay)
    (huniq : ∀ b ∈ items, b.id = a.id → b = a) :
    (buildDayPlan now items ov).filter (fun c => c.assignmentId == a.id) = [] := by
  apply List.filter_eq_nil_iff.mpr
  intro c hc
  obtain ⟨b, hb, hbstale, hcp⟩ := mem_buildDayPlan.mp hc
  obtain ⟨p, _, rfl⟩ := mem_planFor.mp hcp
  simp only [chunkOf_assignmentId, beq_iff_eq]
  intro heq
  have hba : b = a := huniq b hb heq
  subst hba
  have htrue : isStale now b = true := by
    unfold isStale
    rw [hdue]
    exact decide_eq_true hstale
  rw [htrue] at hbstale
  cases hbstale

/-- Witness for C7 at a concrete input: an assignment due 30 days and 1 minute
before the window start yields no chunks. -/
theorem C7_stale_excluded_witness :
    (buildDayPlan 0 [hwVeryStale] []).filter (fun c => c.assignmentId == "a") = [] := by
  have h := C7_stale_excluded 0 [hwVeryStale] [] hwVeryStale (-43201)
    rfl (by decide) (by decide)
  simpa [hwVeryStale] using h

/-! ### Claim C9 -/

/-- C9 counterexample: with a 65-minute estimate the merge rule produces a
35-minute chunk, so chunks are not bounded by 30 minutes. -/
theorem C9_counterexample :
    ((buildDayPlan 0 [hw65] []).all (fun c => decide (c.minutes ≤ 30))) = false := by
  decide

/-- C9 (amended): every chunk of the plan has positive minutes and at most
39 minutes (CHUNK_MINUTES + MIN_LAST_CHUNK - 1), for every assignment list and
override map. -/
theorem C9_minutes_le_39 (now : Int) (items : List Assignment)
    (ov : OverridesByChunkKey) (c : PlanChunk) (hc : c ∈ buildDayPlan now items ov) :
    0 < c.minutes ∧ c.minutes ≤ 39 := by
  obtain ⟨a, _, _, hcp⟩ := mem_buildDayPlan.mp hc
  obtain ⟨p, hp, rfl⟩ := mem_planFor.mp hcp
  rw [chunkOf_minutes]
  obtain ⟨hlt, he⟩ := List.getElem?_eq_some_iff.mp hp
  have hmem2 : p.2 ∈ chunkSizes (max 30 (a.estimateMinutes.getD 60)) := by
    rw [← he]
    exact List.getElem_mem hlt
  have hb := chunkSizes_mem_bounds _ (le_max_left _ _) p.2 hmem2
  unfold MIN_LAST_CHUNK at hb
  omega

/-- Witness for C9 at a concrete input: the 35-minute chunk of the 65-minute
assignment satisfies the amended bound. -/
theorem C9_minutes_le_39_witness :
    (0 : Int) < chunk65merged.minutes ∧ chunk65merged.minutes ≤ 39 :=
  C9_minutes_le_39 0 [hw65] [] chunk65merged (by decide)

/-! ### Claim C10 -/

/-- C10: every chunk of the plan carries the id of some assignment of the input
list, and the number of chunks does not depend on the override map at all, so
override entries referencing no input assignment never cause a chunk. -/
theorem C10_chunks_from_inputs (now : Int) (items : List Assignment)
    (ov : OverridesByChunkKey) :
    (∀ c ∈ buildDayPlan now items ov, ∃ a, a ∈ items ∧ c.assignmentId = a.id) ∧
    (buildDayPlan now items ov).length = (buildDayPlan now items []).length := by
  constructor
  · intro c hc
    obtain ⟨a, ha, _, hcp⟩ := mem_buildDayPlan.mp hc
    obtain ⟨p, _, rfl⟩ := mem_planFor.mp hcp
    exact ⟨a, ha, rfl⟩
  · unfold buildDayPlan
    rw [(sortBy_perm _ _).length_eq, (sortBy_perm _ _).length_eq]
    apply flatMap_length_congr
    intro b _
    rw [planFor_length, planFor_length]

/-- Witness for C10 at a concrete input: an orphaned override (key of a deleted
assignment) changes nothing about where chunks come from or how many there are. -/
theorem C10_chunks_from_inputs_witness :
    ∃ a, a ∈ [hw70] ∧ chunk70at0.assignmentId = a.id :=
  (C10_chunks_from_inputs 0 [hw70] [("deleted|0", { done := some true })]).1
    chunk70at0 (by decide)

/-! ### Claim C8 -/

/-- C8 counterexample: for the 70-minute assignment the produced chunk sizes are
[30, 30, 10], not [30, 40]: the exactly-10-minute remainder meets the
MIN_LAST_CHUNK boundary and is not merged. -/
theorem C8_counterexample :
    ((buildDayPlan 0 [hw70] []).map (fun c => c.minutes)) = [30, 30, 10]
    ∧ ((buildDayPlan 0 [hw70] []).map (fun c => c.minutes)) ≠ [30, 40] := by
  exact ⟨by decide, by decide⟩

/-- C8 (amended): an assignment with estimated minutes 70 produces chunk minute
sizes [30, 30, 10] in index order; the 10-minute tail is kept as its own chunk
because 10 is not below MIN_LAST_CHUNK. -/
theorem C8_chunks_of_70 (vs : Int) (ov : OverridesByChunkKey) (a : Assignment)
    (h : a.estimateMinutes = some 70) :
    (planFor vs ov a).map (fun c => c.minutes) = [30, 30, 10] := by
  rw [planFor_map_minutes, h]
  decide

/-- Witness for C8 at a concrete input. -/
theorem C8_chunks_of_70_witness :
    (planFor 0 [] hw70).map (fun c => c.minutes) = [30, 30, 10] :=
  C8_chunks_of_70 0 [] hw70 rfl

/-! ### Claim C5 -/

theorem roundDiv_zero (b : Int) (hb : 0 < b) : roundDiv 0 b = 0 := by
  rw [roundDiv_eq_jsRound _ _ hb]
  have h0 : (((0 : ℤ) : ℚ) / ((b : ℤ) : ℚ)) = ((0 : ℤ) : ℚ) := by
    push_cast
    simp
  rw [h0, jsRound_intCast]

theorem defaultDayIndex_eq_jsRound (n : Nat) (L : Int) (i : Nat)
    (hn : i < n) (hL : 1 ≤ L) :
    defaultDayIndex n L i
      = jsRound ((if n = 1 then (0 : ℚ) else (i : ℚ) / ((n - 1 : ℕ) : ℚ))
          * ((L - 1 : ℤ) : ℚ)) := by
  unfold defaultDayIndex
  by_cases hL1 : L = 1
  · rw [if_pos hL1, hL1]
    have hz : (((1 : ℤ) - 1 : ℤ) : ℚ) = 0 := by norm_num
    rw [hz, mul_zero]
    have h0 := jsRound_intCast 0
    have hc : ((0 : ℤ) : ℚ) = (0 : ℚ) := by norm_num
    rw [hc] at h0
    omega
  · rw [if_neg hL1]
    by_cases hn1 : n = 1
    · rw [if_pos hn1, if_pos hn1, if_pos hn1, zero_mul]
      rw [roundDiv_zero 1 (by norm_num), zero_mul]
      have h0 := jsRound_intCast 0
      have hc : ((0 : ℤ) : ℚ) = (0 : ℚ) := by norm_num
      rw [hc] at h0
      omega
    · rw [if_neg hn1, if_neg hn1, if_neg hn1]
      obtain ⟨m, rfl⟩ : ∃ m, n = m + 2 := ⟨n - 2, by omega⟩
      have hsub : (m + 2 - 1 : ℕ) = m + 1 := by omega
      have hd : (0 : Int) < ((m + 2 - 1 : ℕ) : Int) := by
        rw [hsub]
        exact_mod_cast Nat.succ_pos m
      rw [roundDiv_eq_jsRound _ _ hd]
      congr 1
      rw [hsub]
      push_cast
      rw [div_mul_eq_mul_div]

theorem defaultDayIndex_zero (n : Nat) (L : Int) (hn : 1 ≤ n) :
    defaultDayIndex n L 0 = 0 := by
  unfold defaultDayIndex
  by_cases hL1 : L = 1
  · rw [if_pos hL1]
  · rw [if_neg hL1]
    by_cases hn1 : n = 1
    · rw [if_pos hn1, if_pos hn1, zero_mul]
      exact roundDiv_zero 1 (by norm_num)
    · rw [if_neg hn1, if_neg hn1]
      have hz : (((0 : ℕ) : Int)) = 0 := rfl
      rw [hz, zero_mul]
      exact roundDiv_zero _ (by omega)

theorem defaultDayIndex_last (n : Nat) (L : Int) (h2 : 2 ≤ n) (hL : 1 ≤ L) :
    defaultDayIndex n L (n - 1) = L - 1 := by
  unfold defaultDayIndex
  by_cases hL1 : L = 1
  · rw [if_pos hL1]
    omega
  · rw [if_neg hL1, if_neg (by omega : ¬ n = 1), if_neg (by omega : ¬ n = 1)]
    obtain ⟨m, rfl⟩ : ∃ m, n = m + 2 := ⟨n - 2, by omega⟩
    have hsub : (m + 2 - 1 : ℕ) = m + 1 := by omega
    have hd : (0 : Int) < ((m + 2 - 1 : ℕ) : Int) := by
      rw [hsub]
      exact_mod_cast Nat.succ_pos m
    rw [roundDiv_eq_jsRound _ _ hd]
    have hq : ((((m + 2 - 1 : ℕ) : Int) * (L - 1) : ℤ) : ℚ) / (((m + 2 - 1 : ℕ) : ℤ) : ℚ)
        = ((L - 1 : ℤ) : ℚ) := by
      rw [hsub]
      have hne : ((m : ℚ) + 1) ≠ 0 := by positivity
      push_cast
      field_simp
    rw [hq, jsRound_intCast]

/-- C5 counterexample: for an assignment due yesterday (due day -1 seen from
instant 0) both chunks, the last included, fall on today (day 0), while
min(due day, window end) is -1; so the claim that the last chunk falls on
min(due day, window end) is false. -/
theorem C5_counterexample :
    ((buildDayPlan 0 [hwOverdue] []).map (fun c => c.dayISO)) = [some 0, some 0]
    ∧ min ((-840 : Int).fdiv minutesPerDay) ((0 : Int).fdiv minutesPerDay + 6) = -1 := by
  exact ⟨by decide, by decide⟩

/-- C5 (amended): a chunk with no day override is placed on day
vs + round(ratio * (L-1)) with ratio = i/(n-1) (0 when n = 1), where L is the
length of the assignment's local window; in particular chunk 0 falls on today,
and when n ≥ 2 and the due day is not before today the last chunk falls on
min(due day, window end).  (When the due day is before today, L = 1 and every
chunk falls on today.) -/
theorem C5_default_spread (vs : Int) (ov : OverridesByChunkKey) (a : Assignment)
    (p : Nat × Int) (t : Int) (hdue : a.dueISO = some t)
    (hp : p.1 < (chunkSizes (max 30 (a.estimateMinutes.getD 60))).length)
    (hov : ((lookupOv ov (chunkKey a.id p.1)).getD {}).dayISO = none) :
    (chunkOf vs ov a p).dayISO
        = some (vs + jsRound
            ((if (chunkSizes (max 30 (a.estimateMinutes.getD 60))).length = 1
              then (0 : ℚ)
              else (p.1 : ℚ)
                / (((chunkSizes (max 30 (a.estimateMinutes.getD 60))).length - 1 : ℕ) : ℚ))
            * ((localWindowLen vs (t.fdiv minutesPerDay) - 1 : ℤ) : ℚ)))
    ∧ (p.1 = 0 → (chunkOf vs ov a p).dayISO = some vs)
    ∧ (2 ≤ (chunkSizes (max 30 (a.estimateMinutes.getD 60))).length →
        p.1 = (chunkSizes (max 30 (a.estimateMinutes.getD 60))).length - 1 →
        vs ≤ t.fdiv minutesPerDay →
        (chunkOf vs ov a p).dayISO
          = some (min (t.fdiv minutesPerDay) (vs + 6))) := by
  have hL1 : 1 ≤ localWindowLen vs (t.fdiv minutesPerDay) := localWindowLen_pos _ _
  have hL7 : localWindowLen vs (t.fdiv minutesPerDay) ≤ 7 := localWindowLen_le _ _
  have hb := defaultDayIndex_bounds
    (chunkSizes (max 30 (a.estimateMinutes.getD 60))).length
    (localWindowLen vs (t.fdiv minutesPerDay)) p.1 hp hL1
  have base : (chunkOf vs ov a p).dayISO
      = some (vs + defaultDayIndex
          (chunkSizes (max 30 (a.estimateMinutes.getD 60))).length
          (localWindowLen vs (t.fdiv minutesPerDay)) p.1) := by
    rw [chunkOf_eval_some vs ov a p t hdue hp, hov, Option.getD_none,
      clampToView_eq_self _ _ _ (by omega) (by omega)]
  refine ⟨?_, ?_, ?_⟩
  · rw [base, defaultDayIndex_eq_jsRound _ _ _ hp hL1]
  · intro h0
    rw [base, h0, defaultDayIndex_zero _ _ (by omega), add_zero]
  · intro h2 hlast hvd
    rw [base, hlast, defaultDayIndex_last _ _ h2 hL1]
    have hval : vs + (localWindowLen vs (t.fdiv minutesPerDay) - 1)
        = min (t.fdiv minutesPerDay) (vs + 6) := by
      unfold localWindowLen
      omega
    rw [hval]

/-- Witness for C5 at a concrete input: the last chunk (index 2 of 3) of the
70-minute assignment due on day 2, seen from day 0, with no override. -/
theorem C5_default_spread_witness :
    (chunkOf 0 [] hw70 (2, 10)).dayISO
        = some (0 + jsRound
            ((if (chunkSizes (max 30 (hw70.estimateMinutes.getD 60))).length = 1
              then (0 : ℚ)
              else ((2 : ℕ) : ℚ)
                / (((chunkSizes (max 30 (hw70.estimateMinutes.getD 60))).length - 1 : ℕ) : ℚ))
            * ((localWindowLen 0 ((3000 : Int).fdiv minutesPerDay) - 1 : ℤ) : ℚ)))
    ∧ ((2 : ℕ) = 0 → (chunkOf 0 [] hw70 (2, 10)).dayISO = some 0)
    ∧ (2 ≤ (chunkSizes (max 30 (hw70.estimateMinutes.getD 60))).length →
        (2 : ℕ) = (chunkSizes (max 30 (hw70.estimateMinutes.getD 60))).length - 1 →
        (0 : Int) ≤ (3000 : Int).fdiv minutesPerDay →
        (chunkOf 0 [] hw70 (2, 10)).dayISO
          = some (min ((3000 : Int).fdiv minutesPerDay) (0 + 6))) :=
  C5_default_spread 0 [] hw70 (2, 10) 3000 rfl (by decide) (by decide)

/-! ### Claim C4 -/

theorem planFor_congr_ov (vs : Int) (ov₁ ov₂ : OverridesByChunkKey) (a : Assignment)
    (h : ∀ k, lookupOv ov₁ k = lookupOv ov₂ k) :
    planFor vs ov₁ a = planFor vs ov₂ a := by
  unfold planFor
  apply List.map_congr_left
  intro p _
  unfold chunkOf
  simp only [h]

/-- C4: buildDayPlan is deterministic, a pure function of the current moment, the
assignment list, and the override map; it reads the override object only through
key lookup, so any two override objects with the same lookup behaviour give
identical plans. -/
theorem C4_deterministic (now : Int) (items : List Assignment)
    (ov₁ ov₂ : OverridesByChunkKey)
    (h : ∀ k, lookupOv ov₁ k = lookupOv ov₂ k) :
    buildDayPlan now items ov₁ = buildDayPlan now items ov₂ := by
  unfold buildDayPlan
  have hpf : planFor (now.fdiv minutesPerDay) ov₁
      = planFor (now.fdiv minutesPerDay) ov₂ :=
    funext (fun b => planFor_congr_ov _ _ _ b h)
  simp only [hpf]

/-- Witness for C4 at a concrete input: a shadowed duplicate binding does not
change the plan. -/
theorem C4_deterministic_witness :
    buildDayPlan 0 [hw70] [("a|0", { done := some true })]
      = buildDayPlan 0 [hw70]
          [("a|0", { done := some true }), ("a|0", { done := some false })] :=
  C4_deterministic 0 [hw70] _ _ (by
    intro k
    by_cases hk : "a|0" = k
    · simp [lookupOv, hk]
    · simp [lookupOv, hk])

/-! ### Claim C3 -/

theorem doneMap_key (k : String) (c : PlanChunk) : (doneMap k c).key = c.key := by
  unfold doneMap
  split_ifs <;> rfl

theorem doneMap_dayISO (k : String) (c : PlanChunk) : (doneMap k c).dayISO = c.dayISO := by
  unfold doneMap
  split_ifs <;> rfl

theorem doneMap_dueISO (k : String) (c : PlanChunk) : (doneMap k c).dueISO = c.dueISO := by
  unfold doneMap
  split_ifs <;> rfl

theorem doneMap_of_ne (k : String) (c : PlanChunk) (h : ¬ c.key = k) :
    doneMap k c = c := by
  unfold doneMap
  rw [if_neg h]

theorem cmpChunk_doneMap (k : String) (x y : PlanChunk) :
    cmpChunk (doneMap k x) (doneMap k y) = cmpChunk x y := by
  unfold cmpChunk
  rw [doneMap_dayISO, doneMap_dayISO, doneMap_dueISO, doneMap_dueISO]

theorem chunkOf_setDone (vs : Int) (ov : OverridesByChunkKey) (k : String)
    (a : Assignment) (p : Nat × Int) :
    chunkOf vs (setDone ov k) a p = doneMap k (chunkOf vs ov a p) := by
  by_cases hk : k = chunkKey a.id p.1
  · subst hk
    unfold chunkOf doneMap setDone
    simp [lookupOv]
  · unfold chunkOf doneMap setDone
    simp [lookupOv, hk, Ne.symm hk]

theorem planFor_setDone (vs : Int) (ov : OverridesByChunkKey) (k : String)
    (a : Assignment) :
    planFor vs (setDone ov k) a = (planFor vs ov a).map (doneMap k) := by
  unfold planFor
  rw [List.map_map]
  apply List.map_congr_left
  intro p _
  exact chunkOf_setDone vs ov k a p

theorem buildDayPlan_setDone (now : Int) (items : List Assignment)
    (ov : OverridesByChunkKey) (k : String) :
    buildDayPlan now items (setDone ov k)
      = (buildDayPlan now items ov).map (doneMap k) := by
  unfold buildDayPlan
  rw [← sortBy_map cmpChunk (doneMap k) (cmpChunk_doneMap k)]
  rw [List.map_flatMap]
  have hpf : planFor (now.fdiv minutesPerDay) (setDone ov k)
      = fun b => (planFor (now.fdiv minutesPerDay) ov b).map (doneMap k) :=
    funext (planFor_setDone (now.fdiv minutesPerDay) ov k)
  simp only [hpf]

theorem filter_map_doneMap (k : String) (l : List PlanChunk) :
    (l.map (doneMap k)).filter (fun c => !(c.key == k))
      = l.filter (fun c => !(c.key == k)) := by
  induction l with
  | nil => rfl
  | cons c cs ih =>
    by_cases hk : c.key = k
    · simp [List.filter_cons, doneMap_key, hk, ih]
    · simp [List.filter_cons, doneMap_key, hk, ih, doneMap_of_ne k c hk]

/-- C3: chunk keys derive only from the assignment id and the chunk index, never
from the override map; after setting a done=true override for chunk i of
assignment a, the recomputed plan contains a chunk with that key, every chunk with
that key is done, and the chunks with any other key are exactly those of the plan
without the update -- for every assignment list, hence in particular under edits
to assignments other than the chunk's owner. -/
theorem C3_done_key_stability (now : Int) (items : List Assignment)
    (ov : OverridesByChunkKey) (a : Assignment) (i : Nat)
    (hmem : a ∈ items) (hstale : isStale now a = false)
    (hi : i < (chunkSizes (max 30 (a.estimateMinutes.getD 60))).length) :
    (∃ c, c ∈ buildDayPlan now items (setDone ov (chunkKey a.id i))
        ∧ c.key = chunkKey a.id i) ∧
    (∀ items' : List Assignment,
        ∀ c ∈ buildDayPlan now items' (setDone ov (chunkKey a.id i)),
        c.key = chunkKey a.id i → c.done = true) ∧
    (∀ items' : List Assignment,
        (buildDayPlan now items' (setDone ov (chunkKey a.id i))).filter
            (fun c => !(c.key == chunkKey a.id i))
          = (buildDayPlan now items' ov).filter
            (fun c => !(c.key == chunkKey a.id i))) := by
  refine ⟨?_, ?_, ?_⟩
  · refine ⟨chunkOf (now.fdiv minutesPerDay) (setDone ov (chunkKey a.id i)) a
      (i, (chunkSizes (max 30 (a.estimateMinutes.getD 60))).get ⟨i, hi⟩), ?_, ?_⟩
    · apply mem_buildDayPlan.mpr
      refine ⟨a, hmem, hstale, ?_⟩
      apply mem_planFor.mpr
      refine ⟨(i, (chunkSizes (max 30 (a.estimateMinutes.getD 60))).get ⟨i, hi⟩), ?_, rfl⟩
      simp [List.getElem?_eq_getElem hi]
    · exact chunkOf_key _ _ _ _
  · intro items' c hc hkey
    rw [buildDayPlan_setDone, List.mem_map] at hc
    obtain ⟨c₀, _, rfl⟩ := hc
    unfold doneMap at hkey ⊢
    by_cases h0 : c₀.key = chunkKey a.id i
    · rw [if_pos h0]
    · rw [if_neg h0] at hkey ⊢
      exact absurd hkey h0
  · intro items'
    rw [buildDayPlan_setDone, filter_map_doneMap]

/-- Witness for C3 at concrete input: setting done on chunk a-bar-1 of the
70-minute assignment; the frame equation is then checked on an edited list that
also contains a second (overdue) assignment. -/
theorem C3_done_key_stability_witness :
    ((buildDayPlan 0 [hw70, hwOverdue] (setDone [] (chunkKey hw70.id 1))).filter
        (fun c => !(c.key == chunkKey hw70.id 1))
      = (buildDayPlan 0 [hw70, hwOverdue] []).filter
        (fun c => !(c.key == chunkKey hw70.id 1)))
    ∧ (∃ c, c ∈ buildDayPlan 0 [hw70] (setDone [] (chunkKey hw70.id 1))
        ∧ c.key = chunkKey hw70.id 1) :=
  ⟨(C3_done_key_stability 0 [hw70] [] hw70 1
      (by decide) (by decide) (by decide)).2.2 [hw70, hwOverdue],
   (C3_done_key_stability 0 [hw70] [] hw70 1
      (by decide) (by decide) (by decide)).1⟩

end PlansView
